import Mathlib

/-!
Verification of the DP Set-Union mechanism (`dpsu.py`).

This file gives a shallow embedding of the DPSU core:
* `reservoir_sample` / `boundItems` — the contribution bounder,
* `candidates`, `sortedCands`, `waterfill`, `allocUser` — the per-user
  greedy water-filling budget allocator mutating the shared histogram,
* `runUsers` — the outer loop over users,
* `noiseAndRelease` — the noise-and-threshold release filter,
* `visitOrder` — the user visiting order (hash sort followed by a
  pandas groupby, which sorts group keys),
* `rhoTerm` / `deriveParams` / `policyHistogram` — the rho/gamma
  derivation with Python exceptions modelled by `Except`,
* `policyFilter` / `mergeOnKey` / `run_dpsu_model` — the final
  row-selection join of `run_dpsu`.

Floating point numbers are modelled by an arbitrary linear ordered field
(instantiated at `ℚ` for concrete evaluation, at `ℝ` where the code takes
logarithms).  Python dictionaries keyed by items are modelled as total
functions `α → F` updated with `Function.update`; the histogram's
`defaultdict(float)` default is the constant `0` function.  Randomness
(the reservoir draws, the Laplace noise) is supplied as an explicit
oracle argument.
-/

set_option linter.unusedSectionVars false
set_option linter.unusedVariables false

namespace DPSU

variable {F : Type} [LinearOrderedField F] {α : Type} [DecidableEq α]

/-- Body of the inner loop of the saturating (`cost <= budget`) branch of
`policy_laplace`'s water-filling loop, at inner index `j`:

    remaining_item = sorted_items[j]
    histogram[remaining_item] += cost_dict[curr_item]
    cost_dict[remaining_item] -= cost_dict[curr_item]

The state is the pair (histogram, cost_dict).  Note that
`cost_dict[curr_item]` is read again at every `j`, after the updates made
by smaller `j` (in particular after `j = idx`, where it is zeroed). -/
def satBody (sorted : List α) (curr : α) (st : (α → F) × (α → F)) (j : ℕ) :
    (α → F) × (α → F) :=
  (Function.update st.1 (sorted.getD j curr) (st.1 (sorted.getD j curr) + st.2 curr),
   Function.update st.2 (sorted.getD j curr) (st.2 (sorted.getD j curr) - st.2 curr))

/-- Body of the inner loop of the budget-exhaustion (`else`) branch:

    remaining_item = sorted_items[j]
    histogram[remaining_item] += budget / k
-/
def exhaustBody (sorted : List α) (curr : α) (budget : F) (k : ℕ) (h : α → F)
    (j : ℕ) : α → F :=
  Function.update h (sorted.getD j curr) (h (sorted.getD j curr) + budget / (k : F))

/-- The water-filling loop of `policy_laplace`:

    for idx, curr_item in enumerate(sorted_items):
        cost = cost_dict[curr_item] * k
        if cost <= budget:
            for j in range(idx, k): ...satBody...
            budget -= cost
            k -= 1
        else:
            for j in range(idx, k): ...exhaustBody...
            break

The recursion walks the enumerated suffix of `sorted` (so the call from
`allocUser` passes the whole list, `idx = 0` and `k = sorted.length`);
`break` is the non-recursive `else` case.  The result is the histogram. -/
def waterfill (sorted : List α) : ℕ → List α → (α → F) → (α → F) → F → ℕ → (α → F)
  | _, [], hist, _, _, _ => hist
  | idx, curr :: rest, hist, costs, budget, k =>
    if costs curr * (k : F) ≤ budget then
      waterfill sorted (idx + 1) rest
        ((List.range' idx (k - idx)).foldl (satBody sorted curr) (hist, costs)).1
        ((List.range' idx (k - idx)).foldl (satBody sorted curr) (hist, costs)).2
        (budget - costs curr * (k : F)) (k - 1)
    else
      (List.range' idx (k - idx)).foldl (exhaustBody sorted curr budget k) hist

/-- Safety instrumentation of `waterfill`: it holds iff, along the very
same control path that `waterfill` takes, the budget is non-negative at
the head of every iteration and the division `budget / k` of the
exhaustion branch is only ever reached with `k ≥ 1`. -/
def waterfillSafe (sorted : List α) : ℕ → List α → (α → F) → (α → F) → F → ℕ → Prop
  | _, [], _, _, _, _ => True
  | idx, curr :: rest, hist, costs, budget, k =>
    0 ≤ budget ∧
    (if costs curr * (k : F) ≤ budget then
      waterfillSafe sorted (idx + 1) rest
        ((List.range' idx (k - idx)).foldl (satBody sorted curr) (hist, costs)).1
        ((List.range' idx (k - idx)).foldl (satBody sorted curr) (hist, costs)).2
        (budget - costs curr * (k : F)) (k - 1)
    else 1 ≤ k)

/-- The candidate items of one user: the Python loop

    for item in items:
        if histogram[item] < gamma:
            cost_dict[item] = gamma - histogram[item]

builds a dict whose keys, in insertion order, are the first occurrences
of the items with histogram weight strictly below `gamma`. -/
def candidates (hist : α → F) (gamma : F) (items : List α) : List α :=
  (items.filter (fun it => decide (hist it < gamma))).dedup

/-- Comparison of two items by their cost `gamma - histogram[item]`, the
sort key of `sorted(cost_dict.items(), key=lambda item: item[1])`. -/
def costLE (hist : α → F) (gamma : F) (a b : α) : Prop :=
  gamma - hist a ≤ gamma - hist b

instance (hist : α → F) (gamma : F) : DecidableRel (costLE hist gamma) :=
  fun _ _ => inferInstanceAs (Decidable (_ ≤ _))

instance (hist : α → F) (gamma : F) : IsTotal α (costLE hist gamma) :=
  ⟨fun _ _ => le_total _ _⟩

instance (hist : α → F) (gamma : F) : IsTrans α (costLE hist gamma) :=
  ⟨fun _ _ _ hab hbc => le_trans hab hbc⟩

/-- The user's candidate items sorted ascending by cost (`sorted_items`).
`List.insertionSort` is stable, like Python's `sorted`. -/
def sortedCands (hist : α → F) (gamma : F) (items : List α) : List α :=
  (candidates hist gamma items).insertionSort (costLE hist gamma)

/-- The initial per-user cost table `cost_dict`, as a total function.  It
agrees with the Python dict on every candidate item, and `waterfill` only
ever reads it at candidate items. -/
def userCosts (hist : α → F) (gamma : F) : α → F :=
  fun it => gamma - hist it

/-- One user's allocation step of `policy_laplace`: build the cost table
and run the water-filling loop with `budget = 1` and `k` the number of
candidates, returning the updated shared histogram. -/
def allocUser (hist : α → F) (gamma : F) (items : List α) : α → F :=
  waterfill (sortedCands hist gamma items) 0 (sortedCands hist gamma items)
    hist (userCosts hist gamma) 1 (sortedCands hist gamma items).length

/-- The outer loop of `policy_laplace` over the (bounded) item lists of
the users, in visiting order, threading the shared histogram. -/
def runUsers (gamma : F) (users : List (List α)) (hist : α → F) : α → F :=
  users.foldl (fun h items => allocUser h gamma items) hist

/-- The loop of `reservoir_sample`, with `i` the `enumerate` index,
`res` the reservoir accumulated so far and `rand i` the value that
`random.randint(0, i)` returns at index `i`. -/
def resLoop (rand : ℕ → ℕ) (mc : ℕ) : ℕ → List α → List α → List α
  | _, [], res => res
  | i, x :: xs, res =>
    if i < mc then resLoop rand mc (i + 1) xs (res ++ [x])
    else if rand i < mc then resLoop rand mc (i + 1) xs (res.set (rand i) x)
    else resLoop rand mc (i + 1) xs res

/-- Embedding of `reservoir_sample(iterable, max_contrib)`, with the random draws
supplied by the oracle `rand`. -/
def reservoir_sample (rand : ℕ → ℕ) (mc : ℕ) (l : List α) : List α :=
  resLoop rand mc 0 l []

/-- The contribution-bounding step of `policy_laplace`:

    if len(items) > max_contrib:
        items = reservoir_sample(items, max_contrib)
-/
def boundItems (rand : ℕ → ℕ) (mc : ℕ) (items : List α) : List α :=
  if mc < items.length then reservoir_sample rand mc items else items

/-- The noise-and-release loop of `policy_laplace`:

    items = []
    for item in histogram.keys():
        histogram[item] += laplace(0, lambd, 1)[0]
        if histogram[item] > rho:
            items.append(item)

`keys` is the key list of the histogram dict (hence without duplicates),
`noise it` the Laplace draw added to item `it`.  The result is the final
noisy histogram together with the released item list. -/
def noiseAndRelease (keys : List α) (hist noise : α → F) (rho : F) :
    (α → F) × List α :=
  keys.foldl
    (fun st it =>
      (Function.update st.1 it (st.1 it + noise it),
       if rho < st.1 it + noise it then st.2 ++ [it] else st.2))
    (hist, [])

end DPSU

namespace DPSU

variable {β γ : Type}

/-- Comparison of two rows by the hash of their user key, the sort key of
`df.sort_values("hash")` after `df["hash"] = df[key_col].apply(...)`. -/
def hashLE (hashF : β → ℤ) (r s : β × γ) : Prop :=
  hashF r.1 ≤ hashF s.1

instance (hashF : β → ℤ) : DecidableRel (hashLE (γ := γ) hashF) :=
  fun _ _ => inferInstanceAs (Decidable (_ ≤ _))

instance (hashF : β → ℤ) : IsTotal (β × γ) (hashLE hashF) :=
  ⟨fun _ _ => le_total _ _⟩

instance (hashF : β → ℤ) : IsTrans (β × γ) (hashLE hashF) :=
  ⟨fun _ _ _ hab hbc => le_trans hab hbc⟩

/-- Embedding of `df.sort_values("hash")`: stable sort of the rows by hash of user key. -/
def sortRowsByHash (hashF : β → ℤ) (rows : List (β × γ)) : List (β × γ) :=
  rows.insertionSort (hashLE hashF)

/-- The sequence of group keys of `df.groupby(key_col)`.  Pandas groupby
uses `sort=True` by default, so the groups are visited in ascending order
of the key value; dedup keeps one entry per distinct user. -/
def groupKeys [LinearOrder β] (rows : List (β × γ)) : List β :=
  ((rows.map Prod.fst).dedup).insertionSort (fun a b => a ≤ b)

/-- The order in which `policy_laplace` visits users: hash-sort the rows,
then iterate `groupby(key_col)` over the sorted frame. -/
def visitOrder [LinearOrder β] (hashF : β → ℤ) (rows : List (β × γ)) : List β :=
  groupKeys (sortRowsByHash hashF rows)

end DPSU

namespace DPSU

variable {β α : Type}

/-- The final filter of `policy_laplace`:
`df = df[df["group_cols"].isin(items)]` keeps exactly the rows whose item
is in the released list. -/
def policyFilter [DecidableEq α] (released : List α) (rows : List (β × α)) :
    List (β × α) :=
  rows.filter (fun r => decide (r.2 ∈ released))

/-- Embedding of `pd.merge(input_df, dpsu_df, on=dpsu_df.columns[0])`: an inner join
on the user-key column (column 0).  Every input row is emitted once per
row of `dpsu` that carries the same user key; dropping the bookkeeping
columns leaves the input row itself. -/
def mergeOnKey [DecidableEq β] (input dpsu : List (β × α)) : List (β × α) :=
  input.flatMap (fun r => ((dpsu.filter (fun s => decide (s.1 = r.1))).map (fun _ => r)))

/-- Embedding of `run_dpsu` after the release step: `rows` is the preprocessed table
(user key paired with the item derived from the grouping columns) and
`released` the item list produced by the noise-and-threshold step.  The
code filters the preprocessed rows by released item and then joins the
input back on the user-key column. -/
def run_dpsu_model [DecidableEq α] [DecidableEq β] (rows : List (β × α))
    (released : List α) : List (β × α) :=
  mergeOnKey rows (policyFilter released rows)

end DPSU

namespace DPSU

open Classical

/-- Left-to-right evaluation of `f` over a list where `f` may raise, with
the first raised exception propagated: the evaluation order of the list
comprehension building the `rho` candidates. -/
def exceptMap {ε γ δ : Type} (f : γ → Except ε δ) : List γ → Except ε (List δ)
  | [] => Except.ok []
  | x :: xs =>
    match f x with
    | Except.error e => Except.error e
    | Except.ok y =>
      match exceptMap f xs with
      | Except.error e => Except.error e
      | Except.ok ys => Except.ok (y :: ys)

/-- One candidate term of the `rho` derivation,

    1/i + lambd * math.log(1 / (2 * (1 - (1 - delta)**(1/i))))

with Python's runtime errors modelled by `Except`: a negative base with
the non-integral exponent `1/i` (that is, `i ≥ 2`) yields a complex
number that `math.log` rejects; a zero denominator raises
`ZeroDivisionError`; a non-positive argument to `math.log` raises a math
domain error.  Real powers are `Real.rpow`, which agrees with Python's
`**` on a non-negative base and on the exponent `1` (`i = 1`). -/
noncomputable def rhoTerm (lambd delta : ℝ) (i : ℕ) : Except String ℝ :=
  if 1 - delta < 0 ∧ 2 ≤ i then Except.error "TypeError: complex log" else
  if 2 * (1 - (1 - delta) ^ ((1 : ℝ) / (i : ℝ))) = 0 then
    Except.error "ZeroDivisionError" else
  if 1 / (2 * (1 - (1 - delta) ^ ((1 : ℝ) / (i : ℝ)))) ≤ 0 then
    Except.error "ValueError: math domain error" else
  Except.ok (1 / (i : ℝ) +
    lambd * Real.log (1 / (2 * (1 - (1 - delta) ^ ((1 : ℝ) / (i : ℝ))))))

/-- The parameter derivation of `policy_laplace`:

    lambd = 1 / eps
    rho = [1/i + lambd * log(...) for i in range(1, max_contrib+1)]
    rho = max(rho)
    gamma = rho + alpha * lambd        (alpha = 3.0)

`eps = 0` raises `ZeroDivisionError` at `1 / eps`; `max([])` (that is,
`max_contrib < 1`) raises a `ValueError`.  The result is `(rho, gamma)`.
There is no other parameter checking in the code. -/
noncomputable def deriveParams (eps delta : ℝ) (mc : ℕ) : Except String (ℝ × ℝ) :=
  if eps = 0 then Except.error "ZeroDivisionError" else
  match exceptMap (rhoTerm (1 / eps) delta) (List.range' 1 mc) with
  | Except.error e => Except.error e
  | Except.ok [] => Except.error "ValueError: max() arg is an empty sequence"
  | Except.ok (r :: rs) => Except.ok (rs.foldl max r, rs.foldl max r + 3 * (1 / eps))

/-- Embedding of `policy_laplace` up to the histogram-accumulation phase: first the
parameter derivation runs (raising on some parameter values), and only
if it succeeds does any histogram work happen, with the derived `gamma`.
`users` is the list of per-user (bounded) item lists in visiting order. -/
noncomputable def policyHistogram {α : Type} [DecidableEq α] (eps delta : ℝ)
    (mc : ℕ) (users : List (List α)) : Except String (α → ℝ) :=
  match deriveParams eps delta mc with
  | Except.error e => Except.error e
  | Except.ok p => Except.ok (runUsers p.2 users (fun _ => 0))

end DPSU

namespace DPSU

variable {F : Type} [LinearOrderedField F] {α : Type} [DecidableEq α]

theorem satBody_zero (sorted : List α) (curr : α) (st : (α → F) × (α → F))
    (j : ℕ) (h0 : st.2 curr = 0) : satBody sorted curr st j = st := by
  have h1 : Function.update st.1 (sorted.getD j curr)
      (st.1 (sorted.getD j curr) + st.2 curr) = st.1 := by
    rw [h0, add_zero]; exact Function.update_eq_self _ _
  have h2 : Function.update st.2 (sorted.getD j curr)
      (st.2 (sorted.getD j curr) - st.2 curr) = st.2 := by
    rw [h0, sub_zero]; exact Function.update_eq_self _ _
  unfold satBody
  rw [h1, h2]

theorem satFold_zero (sorted : List α) (curr : α) (l : List ℕ) :
    ∀ st : (α → F) × (α → F), st.2 curr = 0 →
      l.foldl (satBody sorted curr) st = st := by
  induction l with
  | nil => intro st _; rfl
  | cons j l ih =>
    intro st h0
    rw [List.foldl_cons, satBody_zero sorted curr st j h0]
    exact ih st h0

theorem getD_of_drop (sorted : List α) (idx : ℕ) (curr : α) (rest : List α)
    (hdrop : sorted.drop idx = curr :: rest) : sorted.getD idx curr = curr := by
  have h2 := List.getElem?_drop sorted idx 0
  rw [hdrop, Nat.add_zero] at h2
  simp only [List.getElem?_cons_zero] at h2
  rw [List.getD_eq_getElem?_getD, ← h2]
  rfl

theorem satFold_sat (sorted : List α) (curr : α) (idx k : ℕ)
    (hik : idx < k) (hcurr : sorted.getD idx curr = curr)
    (hist costs : α → F) :
    (List.range' idx (k - idx)).foldl (satBody sorted curr) (hist, costs) =
      (Function.update hist curr (hist curr + costs curr),
       Function.update costs curr 0) := by
  have hk : k - idx = (k - idx - 1) + 1 := by omega
  rw [hk, List.range'_succ, List.foldl_cons]
  have hb : satBody sorted curr (hist, costs) idx =
      (Function.update hist curr (hist curr + costs curr),
       Function.update costs curr 0) := by
    unfold satBody
    simp only [hcurr, sub_self]
  rw [hb]
  exact satFold_zero sorted curr _ _ (by simp)

theorem exhaustFold_eq (sorted : List α) (curr : α) (budget : F) (k : ℕ) :
    ∀ (l : List ℕ) (hist : α → F),
      (l.map (fun j => sorted.getD j curr)).Nodup →
      ∀ it, (l.foldl (exhaustBody sorted curr budget k) hist) it =
        if it ∈ l.map (fun j => sorted.getD j curr) then
          hist it + budget / (k : F)
        else hist it := by
  intro l
  induction l with
  | nil => intro hist _ it; simp
  | cons j l ih =>
    intro hist hnd it
    rw [List.map_cons, List.nodup_cons] at hnd
    rw [List.foldl_cons]
    have hstep : exhaustBody sorted curr budget k hist j =
        Function.update hist (sorted.getD j curr)
          (hist (sorted.getD j curr) + budget / (k : F)) := rfl
    rw [hstep, ih _ hnd.2 it, List.map_cons]
    by_cases hit : it = sorted.getD j curr
    · subst hit
      rw [if_neg hnd.1, if_pos (List.mem_cons_self _ _), Function.update_same]
    · rw [Function.update_noteq hit]
      by_cases hmem : it ∈ l.map (fun j => sorted.getD j curr)
      · rw [if_pos hmem, if_pos (List.mem_cons_of_mem _ hmem)]
      · have hnc : it ∉ sorted.getD j curr :: l.map (fun j => sorted.getD j curr) := by
          intro hc
          rcases List.mem_cons.mp hc with h1 | h2
          · exact hit h1
          · exact hmem h2
        rw [if_neg hmem, if_neg hnc]

end DPSU

namespace DPSU

variable {F : Type} [LinearOrderedField F] {α : Type} [DecidableEq α]

theorem getD_map_range'_nodup (sorted : List α) (hnd : sorted.Nodup) (curr : α)
    (idx c : ℕ) (hc : idx + c ≤ sorted.length) :
    ((List.range' idx c).map (fun j => sorted.getD j curr)).Nodup := by
  apply List.Nodup.map_on _ (List.nodup_range' _ _)
  intro x hx y hy hxy
  rw [List.mem_range'_1] at hx hy
  rw [List.getD_eq_getElem _ _ (by omega), List.getD_eq_getElem _ _ (by omega)] at hxy
  exact (List.Nodup.getElem_inj_iff hnd).mp hxy

theorem getD_mem_drop (sorted : List α) (curr : α) (idx j : ℕ)
    (hij : idx ≤ j) (hj : j < sorted.length) :
    sorted.getD j curr ∈ sorted.drop idx := by
  rw [List.getD_eq_getElem _ _ hj]
  have hlt : j - idx < (sorted.drop idx).length := by
    rw [List.length_drop]; omega
  have he := List.getElem_drop sorted (i := idx) (j := j - idx) (h := hlt)
  have hidj : idx + (j - idx) = j := by omega
  have hmem := List.getElem_mem hlt
  rw [he] at hmem
  simp only [hidj] at hmem
  exact hmem

theorem waterfill_nil (sorted : List α) (idx : ℕ) (hist costs : α → F)
    (budget : F) (k : ℕ) :
    waterfill sorted idx [] hist costs budget k = hist := rfl

theorem waterfill_cons (sorted : List α) (idx : ℕ) (curr : α) (rest : List α)
    (hist costs : α → F) (budget : F) (k : ℕ) :
    waterfill sorted idx (curr :: rest) hist costs budget k =
      if costs curr * (k : F) ≤ budget then
        waterfill sorted (idx + 1) rest
          ((List.range' idx (k - idx)).foldl (satBody sorted curr) (hist, costs)).1
          ((List.range' idx (k - idx)).foldl (satBody sorted curr) (hist, costs)).2
          (budget - costs curr * (k : F)) (k - 1)
      else (List.range' idx (k - idx)).foldl (exhaustBody sorted curr budget k) hist := by
  rfl

end DPSU

namespace DPSU

variable {F : Type} [LinearOrderedField F] {α : Type} [DecidableEq α]

theorem waterfill_main (sorted : List α) (hnd : sorted.Nodup) (gamma : F) :
    ∀ (rest : List α) (idx k : ℕ) (hist costs : α → F) (budget : F),
      sorted.drop idx = rest →
      k = sorted.length - idx →
      0 ≤ budget →
      (∀ it ∈ rest, 0 ≤ costs it) →
      (∀ it ∈ rest, hist it + costs it ≤ gamma) →
      List.Pairwise (fun a b => costs a ≤ costs b) rest →
      (∀ it, it ∉ rest → waterfill sorted idx rest hist costs budget k it = hist it) ∧
      (∀ it, hist it ≤ waterfill sorted idx rest hist costs budget k it) ∧
      ((rest.map
          (fun it => waterfill sorted idx rest hist costs budget k it - hist it)).sum
        ≤ budget) ∧
      (∀ it ∈ rest, waterfill sorted idx rest hist costs budget k it ≤ gamma) := by
  intro rest
  induction rest with
  | nil =>
    intro idx k hist costs budget _ _ hb _ _ _
    refine ⟨fun it _ => rfl, fun it => le_rfl, ?_, fun it hit => absurd hit (by simp)⟩
    simpa using hb
  | cons curr rest' ih =>
    intro idx k hist costs budget hdrop hk hb h5 h7 hpw
    have hidx : idx < sorted.length := by
      by_contra hcon
      rw [List.drop_eq_nil_of_le (by omega)] at hdrop
      exact (List.cons_ne_nil _ _) hdrop.symm
    have hcurr : sorted.getD idx curr = curr := getD_of_drop sorted idx curr rest' hdrop
    have hrest' : sorted.drop (idx + 1) = rest' := by
      rw [← List.tail_drop, hdrop]
      rfl
    have hdnd : (curr :: rest').Nodup := by
      rw [← hdrop]
      exact (List.drop_sublist _ _).nodup hnd
    have hcnotin : curr ∉ rest' := (List.nodup_cons.mp hdnd).1
    have hk1 : 1 ≤ k := by omega
    have hkF1 : (1 : F) ≤ (k : F) := by exact_mod_cast hk1
    have hc0 : 0 ≤ costs curr := h5 curr (List.mem_cons_self _ _)
    rw [waterfill_cons]
    by_cases hbr : costs curr * (k : F) ≤ budget
    · rw [if_pos hbr]
      by_cases hik : idx < k
      · -- saturating step with a nonempty inner range
        have hsf := satFold_sat sorted curr idx k hik hcurr hist costs
        rw [hsf]
        set hist₁ := Function.update hist curr (hist curr + costs curr) with hh1
        set costs₁ := Function.update costs curr 0 with hc1
        have hagree : ∀ it ∈ rest', hist₁ it = hist it ∧ costs₁ it = costs it := by
          intro it hit
          have hne : it ≠ curr := fun hEq => hcnotin (hEq ▸ hit)
          exact ⟨Function.update_noteq hne _ _, Function.update_noteq hne _ _⟩
        obtain ⟨ih1, ih2, ih3, ih4⟩ :=
          ih (idx + 1) (k - 1) hist₁ costs₁ (budget - costs curr * (k : F))
            hrest' (by omega) (sub_nonneg.mpr hbr)
            (fun it hit => ((hagree it hit).2).symm ▸ h5 it (List.mem_cons_of_mem _ hit))
            (fun it hit => by
              rw [(hagree it hit).1, (hagree it hit).2]
              exact h7 it (List.mem_cons_of_mem _ hit))
            ((hpw.of_cons).imp_of_mem (fun ha hb hr => by
              rw [(hagree _ ha).2, (hagree _ hb).2]; exact hr))
        set W := waterfill sorted (idx + 1) rest' hist₁ costs₁
          (budget - costs curr * (k : F)) (k - 1) with hW
        have hWcurr : W curr = hist curr + costs curr := by
          rw [ih1 curr hcnotin, hh1, Function.update_same]
        refine ⟨?_, ?_, ?_, ?_⟩
        · intro it hit
          have hne : it ≠ curr := fun hEq => hit (hEq ▸ List.mem_cons_self _ _)
          have hnr : it ∉ rest' := fun hc => hit (List.mem_cons_of_mem _ hc)
          rw [ih1 it hnr, hh1, Function.update_noteq hne]
        · intro it
          refine le_trans ?_ (ih2 it)
          by_cases hit : it = curr
          · subst hit
            rw [hh1, Function.update_same]
            exact le_add_of_nonneg_right hc0
          · rw [hh1, Function.update_noteq hit]
        · rw [List.map_cons, List.sum_cons, hWcurr]
          have hsum : (rest'.map (fun it => W it - hist it)).sum =
              (rest'.map (fun it => W it - hist₁ it)).sum := by
            apply congrArg
            exact List.map_congr_left (fun it hit => by rw [(hagree it hit).1])
          rw [add_sub_cancel_left, hsum]
          have hmul : costs curr ≤ costs curr * (k : F) := by
            calc costs curr = costs curr * 1 := by ring
            _ ≤ costs curr * (k : F) := mul_le_mul_of_nonneg_left hkF1 hc0
          linarith [ih3]
        · intro it hit
          rcases List.mem_cons.mp hit with hEq | hmem
          · subst hEq
            rw [hWcurr]
            exact h7 it (List.mem_cons_self _ _)
          · exact ih4 it hmem
      · -- saturating step with an empty inner range: nothing is updated
        have hkidx : k - idx = 0 := by omega
        rw [hkidx, List.range'_zero, List.foldl_nil]
        obtain ⟨ih1, ih2, ih3, ih4⟩ :=
          ih (idx + 1) (k - 1) hist costs (budget - costs curr * (k : F))
            hrest' (by omega) (sub_nonneg.mpr hbr)
            (fun it hit => h5 it (List.mem_cons_of_mem _ hit))
            (fun it hit => h7 it (List.mem_cons_of_mem _ hit))
            hpw.of_cons
        set W := waterfill sorted (idx + 1) rest' hist costs
          (budget - costs curr * (k : F)) (k - 1) with hW
        have hWcurr : W curr = hist curr := ih1 curr hcnotin
        refine ⟨?_, ih2, ?_, ?_⟩
        · intro it hit
          exact ih1 it (fun hc => hit (List.mem_cons_of_mem _ hc))
        · rw [List.map_cons, List.sum_cons, hWcurr, sub_self]
          have hcost0 : 0 ≤ costs curr * (k : F) :=
            mul_nonneg hc0 (by positivity)
          linarith [ih3]
        · intro it hit
          rcases List.mem_cons.mp hit with hEq | hmem
          · subst hEq
            rw [hWcurr]
            have := h7 it (List.mem_cons_self _ _)
            linarith [hc0]
          · exact ih4 it hmem
    · -- budget exhaustion: every touched item gets budget / k, then break
      rw [if_neg hbr]
      have hklt : budget < costs curr * (k : F) := lt_of_not_le hbr
      have hkpos : (0 : F) < (k : F) := by
        have : (0 : ℕ) < k := by omega
        exact_mod_cast this
      have hv : 0 ≤ budget / (k : F) := div_nonneg hb (le_of_lt hkpos)
      have hvlt : budget / (k : F) < costs curr := (div_lt_iff₀ hkpos).mpr hklt
      have hnodup_touched : ((List.range' idx (k - idx)).map
          (fun j => sorted.getD j curr)).Nodup :=
        getD_map_range'_nodup sorted hnd curr idx (k - idx) (by omega)
      have hchar := exhaustFold_eq sorted curr budget k (List.range' idx (k - idx))
        hist hnodup_touched
      have htsub : ∀ x ∈ (List.range' idx (k - idx)).map (fun j => sorted.getD j curr),
          x ∈ curr :: rest' := by
        intro x hx
        rcases List.mem_map.mp hx with ⟨j, hj, rfl⟩
        rw [List.mem_range'_1] at hj
        rw [← hdrop]
        exact getD_mem_drop sorted curr idx j hj.1 (by omega)
      have hcostmono : ∀ it ∈ curr :: rest', costs curr ≤ costs it := by
        intro it hit
        rcases List.mem_cons.mp hit with hEq | hmem
        · subst hEq; exact le_rfl
        · exact (List.pairwise_cons.mp hpw).1 it hmem
      refine ⟨?_, ?_, ?_, ?_⟩
      · intro it hit
        rw [hchar it, if_neg (fun hc => hit (htsub it hc))]
      · intro it
        rw [hchar it]
        by_cases hmem : it ∈ (List.range' idx (k - idx)).map (fun j => sorted.getD j curr)
        · rw [if_pos hmem]; linarith
        · rw [if_neg hmem]
      · have hbound : ∀ x ∈ (curr :: rest').map
            (fun it => (List.range' idx (k - idx)).foldl
              (exhaustBody sorted curr budget k) hist it - hist it),
            x ≤ budget / (k : F) := by
          intro x hx
          rcases List.mem_map.mp hx with ⟨it, _, rfl⟩
          rw [hchar it]
          by_cases hmem : it ∈ (List.range' idx (k - idx)).map
              (fun j => sorted.getD j curr)
          · rw [if_pos hmem]; linarith
          · rw [if_neg hmem]; simpa using hv
        have hle := List.sum_le_card_nsmul _ _ hbound
        have hlen : ((curr :: rest').map
            (fun it => (List.range' idx (k - idx)).foldl
              (exhaustBody sorted curr budget k) hist it - hist it)).length = k := by
          rw [List.length_map, ← hdrop, List.length_drop]
          omega
        rw [hlen, nsmul_eq_mul, mul_div_cancel₀ _ (ne_of_gt hkpos)] at hle
        exact hle
      · intro it hit
        rw [hchar it]
        have h7it := h7 it hit
        have h5it := h5 it hit
        by_cases hmem : it ∈ (List.range' idx (k - idx)).map (fun j => sorted.getD j curr)
        · rw [if_pos hmem]
          have := hcostmono it hit
          linarith
        · rw [if_neg hmem]
          linarith

end DPSU

namespace DPSU

variable {F : Type} [LinearOrderedField F] {α : Type} [DecidableEq α]

theorem waterfillSafe_nil (sorted : List α) (idx : ℕ) (hist costs : α → F)
    (budget : F) (k : ℕ) :
    waterfillSafe sorted idx [] hist costs budget k := trivial

theorem waterfillSafe_cons (sorted : List α) (idx : ℕ) (curr : α) (rest : List α)
    (hist costs : α → F) (budget : F) (k : ℕ) :
    waterfillSafe sorted idx (curr :: rest) hist costs budget k =
      (0 ≤ budget ∧
        (if costs curr * (k : F) ≤ budget then
          waterfillSafe sorted (idx + 1) rest
            ((List.range' idx (k - idx)).foldl (satBody sorted curr) (hist, costs)).1
            ((List.range' idx (k - idx)).foldl (satBody sorted curr) (hist, costs)).2
            (budget - costs curr * (k : F)) (k - 1)
        else 1 ≤ k)) := by
  rfl

theorem waterfill_safe (sorted : List α) :
    ∀ (rest : List α) (idx k : ℕ) (hist costs : α → F) (budget : F),
      sorted.drop idx = rest →
      k = sorted.length - idx →
      0 ≤ budget →
      waterfillSafe sorted idx rest hist costs budget k := by
  intro rest
  induction rest with
  | nil => intro idx k hist costs budget _ _ _; trivial
  | cons curr rest' ih =>
    intro idx k hist costs budget hdrop hk hb
    have hidx : idx < sorted.length := by
      by_contra hcon
      rw [List.drop_eq_nil_of_le (by omega)] at hdrop
      exact (List.cons_ne_nil _ _) hdrop.symm
    have hrest' : sorted.drop (idx + 1) = rest' := by
      rw [← List.tail_drop, hdrop]
      rfl
    rw [waterfillSafe_cons]
    refine ⟨hb, ?_⟩
    by_cases hbr : costs curr * (k : F) ≤ budget
    · rw [if_pos hbr]
      exact ih (idx + 1) (k - 1) _ _ _ hrest' (by omega) (sub_nonneg.mpr hbr)
    · rw [if_neg hbr]
      omega

theorem sortedCands_nodup (hist : α → F) (gamma : F) (items : List α) :
    (sortedCands hist gamma items).Nodup :=
  ((List.perm_insertionSort _ _).nodup_iff).mpr (List.nodup_dedup _)

theorem mem_sortedCands (hist : α → F) (gamma : F) (items : List α) (it : α) :
    it ∈ sortedCands hist gamma items ↔ it ∈ items ∧ hist it < gamma := by
  unfold sortedCands candidates
  rw [List.mem_insertionSort, List.mem_dedup, List.mem_filter]
  simp

theorem sortedCands_pairwise (hist : α → F) (gamma : F) (items : List α) :
    List.Pairwise
      (fun a b => userCosts hist gamma a ≤ userCosts hist gamma b)
      (sortedCands hist gamma items) :=
  (List.sorted_insertionSort (costLE hist gamma) _).imp (fun h => h)

theorem allocUser_spec (hist : α → F) (gamma : F) (items : List α) :
    (∀ it, it ∉ sortedCands hist gamma items →
      allocUser hist gamma items it = hist it) ∧
    (∀ it, hist it ≤ allocUser hist gamma items it) ∧
    ((sortedCands hist gamma items).map
        (fun it => allocUser hist gamma items it - hist it)).sum ≤ 1 ∧
    (∀ it ∈ sortedCands hist gamma items, allocUser hist gamma items it ≤ gamma) := by
  have h := waterfill_main (sortedCands hist gamma items)
    (sortedCands_nodup hist gamma items) gamma
    (sortedCands hist gamma items) 0 (sortedCands hist gamma items).length hist
    (userCosts hist gamma) 1 rfl (by omega) zero_le_one
    (fun it hit => by
      have hm := (mem_sortedCands hist gamma items it).mp hit
      unfold userCosts
      linarith [hm.2])
    (fun it _ => by unfold userCosts; ring_nf; exact le_rfl)
    (sortedCands_pairwise hist gamma items)
  unfold allocUser
  exact h

theorem allocUser_le_gamma (hist : α → F) (gamma : F) (items : List α) (it : α)
    (h : hist it ≤ gamma) : allocUser hist gamma items it ≤ gamma := by
  by_cases hmem : it ∈ sortedCands hist gamma items
  · exact (allocUser_spec hist gamma items).2.2.2 it hmem
  · rw [(allocUser_spec hist gamma items).1 it hmem]
    exact h

theorem runUsers_cons (gamma : F) (u : List α) (us : List (List α)) (hist : α → F) :
    runUsers gamma (u :: us) hist = runUsers gamma us (allocUser hist gamma u) := rfl

theorem runUsers_mono (gamma : F) (users : List (List α)) :
    ∀ (hist : α → F) (it : α), hist it ≤ runUsers gamma users hist it := by
  induction users with
  | nil => intro hist it; exact le_rfl
  | cons u us ih =>
    intro hist it
    rw [runUsers_cons]
    exact le_trans ((allocUser_spec hist gamma u).2.1 it) (ih _ it)

theorem runUsers_le_gamma (gamma : F) (users : List (List α)) :
    ∀ (hist : α → F) (it : α), hist it ≤ gamma →
      runUsers gamma users hist it ≤ gamma := by
  induction users with
  | nil => intro hist it h; exact h
  | cons u us ih =>
    intro hist it h
    rw [runUsers_cons]
    exact ih _ it (allocUser_le_gamma hist gamma u it h)

end DPSU

namespace DPSU

variable {F : Type} [LinearOrderedField F] {α : Type} [DecidableEq α]

theorem resLoop_cons (rand : ℕ → ℕ) (mc i : ℕ) (x : α) (xs res : List α) :
    resLoop rand mc i (x :: xs) res =
      if i < mc then resLoop rand mc (i + 1) xs (res ++ [x])
      else if rand i < mc then resLoop rand mc (i + 1) xs (res.set (rand i) x)
      else resLoop rand mc (i + 1) xs res := rfl

theorem resLoop_length (rand : ℕ → ℕ) (mc : ℕ) :
    ∀ (xs : List α) (i : ℕ) (res : List α), res.length = min i mc →
      (resLoop rand mc i xs res).length = min (i + xs.length) mc := by
  intro xs
  induction xs with
  | nil => intro i res h; simpa using h
  | cons x xs ih =>
    intro i res h
    rw [resLoop_cons]
    by_cases h1 : i < mc
    · rw [if_pos h1]
      rw [ih (i + 1) (res ++ [x]) (by rw [List.length_append, h]; simp; omega)]
      simp only [List.length_cons]
      omega
    · rw [if_neg h1]
      by_cases h2 : rand i < mc
      · rw [if_pos h2]
        rw [ih (i + 1) (res.set (rand i) x) (by rw [List.length_set, h]; omega)]
        simp only [List.length_cons]
        omega
      · rw [if_neg h2]
        rw [ih (i + 1) res (by rw [h]; omega)]
        simp only [List.length_cons]
        omega

theorem resLoop_mem (rand : ℕ → ℕ) (mc : ℕ) :
    ∀ (xs : List α) (i : ℕ) (res : List α) (y : α),
      y ∈ resLoop rand mc i xs res → y ∈ res ∨ y ∈ xs := by
  intro xs
  induction xs with
  | nil => intro i res y h; exact Or.inl h
  | cons x xs ih =>
    intro i res y h
    rw [resLoop_cons] at h
    by_cases h1 : i < mc
    · rw [if_pos h1] at h
      rcases ih _ _ _ h with hr | hx
      · rcases List.mem_append.mp hr with h' | h'
        · exact Or.inl h'
        · rw [List.mem_singleton] at h'
          exact Or.inr (h' ▸ List.mem_cons_self _ _)
      · exact Or.inr (List.mem_cons_of_mem _ hx)
    · rw [if_neg h1] at h
      by_cases h2 : rand i < mc
      · rw [if_pos h2] at h
        rcases ih _ _ _ h with hr | hx
        · rcases List.mem_or_eq_of_mem_set hr with h' | h'
          · exact Or.inl h'
          · exact Or.inr (h' ▸ List.mem_cons_self _ _)
        · exact Or.inr (List.mem_cons_of_mem _ hx)
      · rw [if_neg h2] at h
        rcases ih _ _ _ h with hr | hx
        · exact Or.inl hr
        · exact Or.inr (List.mem_cons_of_mem _ hx)

theorem resLoop_passthrough (rand : ℕ → ℕ) (mc : ℕ) :
    ∀ (xs : List α) (i : ℕ) (res : List α), i + xs.length ≤ mc →
      resLoop rand mc i xs res = res ++ xs := by
  intro xs
  induction xs with
  | nil => intro i res _; simp [resLoop]
  | cons x xs ih =>
    intro i res hle
    rw [resLoop_cons, if_pos (by simp at hle; omega)]
    rw [ih (i + 1) (res ++ [x]) (by simp at hle ⊢; omega)]
    rw [← List.append_cons]

theorem boundItems_length (rand : ℕ → ℕ) (mc : ℕ) (items : List α) :
    (boundItems rand mc items).length = min items.length mc := by
  unfold boundItems
  by_cases h : mc < items.length
  · rw [if_pos h]
    unfold reservoir_sample
    rw [resLoop_length rand mc items 0 [] (by simp)]
    omega
  · rw [if_neg h]
    omega

theorem boundItems_passthrough (rand : ℕ → ℕ) (mc : ℕ) (items : List α)
    (h : items.length ≤ mc) : boundItems rand mc items = items := by
  unfold boundItems
  rw [if_neg (by omega)]

theorem boundItems_subset (rand : ℕ → ℕ) (mc : ℕ) (items : List α) (y : α)
    (h : y ∈ boundItems rand mc items) : y ∈ items := by
  unfold boundItems at h
  by_cases hc : mc < items.length
  · rw [if_pos hc] at h
    unfold reservoir_sample at h
    rcases resLoop_mem rand mc items 0 [] y h with hr | hx
    · exact absurd hr (List.not_mem_nil y)
    · exact hx
  · rw [if_neg hc] at h
    exact h

end DPSU

namespace DPSU

variable {F : Type} [LinearOrderedField F] {α : Type} [DecidableEq α]

theorem noiseAndRelease_aux (noise : α → F) (rho : F) :
    ∀ (keys : List α) (hist : α → F) (acc : List α), keys.Nodup →
      (keys.foldl
        (fun st it =>
          (Function.update st.1 it (st.1 it + noise it),
           if rho < st.1 it + noise it then st.2 ++ [it] else st.2))
        (hist, acc)).2 =
      acc ++ keys.filter (fun it => decide (rho < hist it + noise it)) := by
  intro keys
  induction keys with
  | nil => intro hist acc _; simp
  | cons x ks ih =>
    intro hist acc hnd
    rw [List.nodup_cons] at hnd
    rw [List.foldl_cons]
    rw [ih (Function.update hist x (hist x + noise x)) _ hnd.2]
    have hfeq : ks.filter
        (fun it => decide (rho < Function.update hist x (hist x + noise x) it + noise it)) =
        ks.filter (fun it => decide (rho < hist it + noise it)) := by
      apply List.filter_congr
      intro it hit
      have hne : it ≠ x := fun hEq => hnd.1 (hEq ▸ hit)
      rw [Function.update_noteq hne]
    rw [hfeq, List.filter_cons]
    by_cases hx : rho < hist x + noise x
    · rw [if_pos hx, if_pos (by simpa using hx)]
      simp
    · rw [if_neg hx, if_neg (by simpa using hx)]

theorem noiseAndRelease_mem (keys : List α) (hist noise : α → F) (rho : F)
    (hnd : keys.Nodup) (it : α) :
    it ∈ (noiseAndRelease keys hist noise rho).2 ↔
      it ∈ keys ∧ rho < hist it + noise it := by
  unfold noiseAndRelease
  rw [noiseAndRelease_aux noise rho keys hist [] hnd]
  rw [List.nil_append, List.mem_filter]
  simp

end DPSU

namespace DPSU

theorem visitOrder_eq_groupKeys {β γ : Type} [LinearOrder β] (hashF : β → ℤ)
    (rows : List (β × γ)) : visitOrder hashF rows = groupKeys rows := by
  unfold visitOrder groupKeys sortRowsByHash
  have hperm : List.Perm ((rows.insertionSort (hashLE hashF)).map Prod.fst)
      (rows.map Prod.fst) :=
    (List.perm_insertionSort _ _).map _
  have hd : List.Perm (((rows.insertionSort (hashLE hashF)).map Prod.fst).dedup)
      ((rows.map Prod.fst).dedup) := hperm.dedup
  apply List.eq_of_perm_of_sorted (r := fun a b => a ≤ b)
  · exact ((List.perm_insertionSort _ _).trans hd).trans
      (List.perm_insertionSort _ _).symm
  · exact List.sorted_insertionSort _ _
  · exact List.sorted_insertionSort _ _

theorem groupKeys_sorted {β γ : Type} [LinearOrder β] (rows : List (β × γ)) :
    List.Sorted (fun a b => a ≤ b) (groupKeys rows) :=
  List.sorted_insertionSort _ _

end DPSU

namespace DPSU

theorem rhoTerm_at_delta_one : rhoTerm 1 1 1 = Except.ok (1 + Real.log (1 / 2)) := by
  unfold rhoTerm
  have hp : ((1 : ℝ) - 1) ^ ((1 : ℝ) / ((1 : ℕ) : ℝ)) = (0 : ℝ) := by
    rw [Nat.cast_one, div_one, show ((1 : ℝ) - 1) = 0 by norm_num, Real.rpow_one]
  rw [if_neg (by norm_num)]
  rw [hp]
  rw [if_neg (by norm_num), if_neg (by norm_num)]
  rw [Nat.cast_one]
  norm_num

theorem deriveParams_at_delta_one :
    deriveParams 1 1 1 = Except.ok (1 + Real.log (1 / 2), 1 + Real.log (1 / 2) + 3) := by
  unfold deriveParams
  rw [if_neg one_ne_zero]
  rw [show (1 : ℝ) / 1 = 1 from div_one 1]
  have hstep : exceptMap (rhoTerm 1 1) (List.range' 1 1) =
      Except.ok [1 + Real.log (1 / 2)] := by
    show exceptMap (rhoTerm 1 1) [1] = _
    unfold exceptMap
    rw [rhoTerm_at_delta_one]
    rfl
  rw [hstep]
  norm_num

theorem rhoTerm_at_neg_eps : rhoTerm (-1) (1 / 2) 1 = Except.ok 1 := by
  unfold rhoTerm
  have hp : ((1 : ℝ) - 1 / 2) ^ ((1 : ℝ) / ((1 : ℕ) : ℝ)) = (1 / 2 : ℝ) := by
    rw [Nat.cast_one, div_one, show ((1 : ℝ) - 1 / 2) = 1 / 2 by norm_num, Real.rpow_one]
  rw [if_neg (by norm_num)]
  rw [hp]
  rw [if_neg (by norm_num), if_neg (by norm_num)]
  rw [Nat.cast_one]
  norm_num [Real.log_one]

theorem deriveParams_at_neg_eps :
    deriveParams (-1) (1 / 2) 1 = Except.ok (1, -2) := by
  unfold deriveParams
  rw [if_neg (by norm_num)]
  rw [show (1 : ℝ) / (-1) = -1 by norm_num]
  have hstep : exceptMap (rhoTerm (-1) (1 / 2)) (List.range' 1 1) =
      Except.ok [1] := by
    show exceptMap (rhoTerm (-1) (1 / 2)) [1] = _
    unfold exceptMap
    rw [rhoTerm_at_neg_eps]
    rfl
  rw [hstep]
  norm_num

theorem deriveParams_eps_zero (delta : ℝ) (mc : ℕ) :
    deriveParams 0 delta mc = Except.error "ZeroDivisionError" := by
  unfold deriveParams
  rw [if_pos rfl]

theorem deriveParams_mc_zero (eps delta : ℝ) (heps : eps ≠ 0) :
    deriveParams eps delta 0 =
      Except.error "ValueError: max() arg is an empty sequence" := by
  unfold deriveParams
  rw [if_neg heps]
  rfl

end DPSU

namespace DPSU

variable {F : Type} [LinearOrderedField F] {α : Type} [DecidableEq α]

/-- C1: for every user processed by `policy_laplace`, the sum of all
histogram weight increments applied during that single user's allocation
step — over both the saturation branch and the budget-exhaustion branch
of the water-filling loop — is at most `1`: the total weight change over
the user's candidate list is at most the initial budget `1`, and items
outside the candidate list are not changed at all. -/
theorem C1_per_user_budget (hist : α → F) (gamma : F) (items : List α) :
    ((sortedCands hist gamma items).map
        (fun it => allocUser hist gamma items it - hist it)).sum ≤ 1 ∧
    ∀ it, it ∉ sortedCands hist gamma items →
      allocUser hist gamma items it = hist it :=
  ⟨(allocUser_spec hist gamma items).2.2.1, (allocUser_spec hist gamma items).1⟩

theorem C1_per_user_budget_witness :
    ((sortedCands (fun _ => (0 : ℚ)) (1 / 4) [0, 1]).map
        (fun it => allocUser (fun _ => (0 : ℚ)) (1 / 4) [0, 1] it -
          (fun _ => (0 : ℚ)) it)).sum ≤ 1 ∧
    allocUser (fun _ => (0 : ℚ)) (1 / 4) [0, 1] 5 = (fun _ => (0 : ℚ)) 5 :=
  ⟨(C1_per_user_budget (fun _ => (0 : ℚ)) (1 / 4) [0, 1]).1,
   (C1_per_user_budget (fun _ => (0 : ℚ)) (1 / 4) [0, 1]).2 5
     (by with_unfolding_all decide)⟩

/-- C2: evaluation of the allocation loop at the failing input of the
claim.  With an empty histogram, `gamma = 1/4` and one user contributing
the two items `0` and `1` (each with headroom `1/4`, joint saturation
cost `1/2 ≤ budget = 1`), the claim says the saturating step applies the
increment `1/4` to every remaining item, so item `1` ends at
`gamma = 1/4`.  The code leaves item `1` at weight `0`: the inner loop
zeroes `cost_dict[curr_item]` at `j = idx` before the later remaining
items read it, and `range(idx, k)` with the shrunk `k` skips trailing
items, so only the current item is ever raised. -/
theorem C2_code_eval :
    allocUser (fun _ => (0 : ℚ)) (1 / 4) [0, 1] 0 = 1 / 4 ∧
    allocUser (fun _ => (0 : ℚ)) (1 / 4) [0, 1] 1 = 0 ∧
    (0 : ℚ) ≠ 1 / 4 := by
  with_unfolding_all decide

/-- C3: histogram weights are monotone non-decreasing over the course of
a run: each single allocation step only ever increases a weight, and so
does the whole loop over users. -/
theorem C3_monotonicity :
    (∀ (hist : α → F) (gamma : F) (items : List α) (it : α),
      hist it ≤ allocUser hist gamma items it) ∧
    (∀ (gamma : F) (users : List (List α)) (hist : α → F) (it : α),
      hist it ≤ runUsers gamma users hist it) :=
  ⟨fun hist gamma items it => (allocUser_spec hist gamma items).2.1 it,
   fun gamma users hist it => runUsers_mono gamma users hist it⟩

/-- C4: before noise is added no item's accumulated weight exceeds
`gamma`: a single allocation step never raises a weight that is at most
`gamma` above `gamma`, and every run from the empty histogram keeps
every weight at most `gamma` — at every point, since the user list is
arbitrary.  The hypothesis `0 ≤ gamma` (needed because the histogram
starts at `0`) holds on every real run: `deriveParams_gamma_pos` shows
that every successful derivation from a valid parameter triple produces
`gamma > 0`. -/
theorem C4_saturation_cap (gamma : F) (hgamma : 0 ≤ gamma) :
    (∀ (hist : α → F) (items : List α) (it : α), hist it ≤ gamma →
      allocUser hist gamma items it ≤ gamma) ∧
    (∀ (users : List (List α)) (it : α),
      runUsers gamma users (fun _ => 0) it ≤ gamma) :=
  ⟨fun hist items it h => allocUser_le_gamma hist gamma items it h,
   fun users it => runUsers_le_gamma gamma users (fun _ => 0) it hgamma⟩

theorem C4_saturation_cap_witness :
    0 ≤ (1 : ℚ) ∧ runUsers (1 : ℚ) [[0], [0, 1]] (fun _ => 0) 0 ≤ 1 :=
  ⟨by decide, (C4_saturation_cap (α := ℕ) (1 : ℚ) (by decide)).2 [[0], [0, 1]] 0⟩

/-- C5: in the release step, an item is in the released list iff it is a
key of the histogram and its accumulated weight plus its noise draw is
strictly greater than `rho`; in particular a noisy weight equal to `rho`
is not released, and items that are not histogram keys are never
released. -/
theorem C5_threshold (keys : List α) (hist noise : α → F) (rho : F)
    (hnd : keys.Nodup) (it : α) :
    it ∈ (noiseAndRelease keys hist noise rho).2 ↔
      it ∈ keys ∧ rho < hist it + noise it :=
  noiseAndRelease_mem keys hist noise rho hnd it

theorem C5_threshold_witness :
    (0 : ℕ) ∈ (noiseAndRelease [0, 1] (fun it => if it = 0 then (3 : ℚ) else 2)
        (fun _ => 0) 2).2 ↔
      ((0 : ℕ) ∈ [0, 1] ∧
        (2 : ℚ) < (if (0 : ℕ) = 0 then (3 : ℚ) else 2) + 0) :=
  C5_threshold [0, 1] (fun it => if it = 0 then (3 : ℚ) else 2) (fun _ => 0) 2
    (by decide) 0

/-- C6: the contribution-bounding step attributes exactly
`min n max_contrib` items to a user with `n` items: for `n ≤ max_contrib`
the items pass through unchanged, and otherwise `reservoir_sample`
returns exactly `max_contrib` items, each drawn from the input (the
`i`-th input item is stored when `i < max_contrib`, and otherwise
replaces slot `m = rand i` exactly when `m < max_contrib`). -/
theorem C6_contribution_bound (rand : ℕ → ℕ) (mc : ℕ) (items : List α)
    (hmc : 1 ≤ mc) :
    (boundItems rand mc items).length = min items.length mc ∧
    (items.length ≤ mc → boundItems rand mc items = items) ∧
    (∀ y ∈ boundItems rand mc items, y ∈ items) :=
  ⟨boundItems_length rand mc items,
   fun h => boundItems_passthrough rand mc items h,
   fun y hy => boundItems_subset rand mc items y hy⟩

theorem C6_contribution_bound_witness :
    1 ≤ 1 ∧
    (boundItems (fun _ => 0) 1 [(5 : ℕ), 6]).length = min [(5 : ℕ), 6].length 1 :=
  ⟨by decide, (C6_contribution_bound (fun _ => 0) 1 [5, 6] (by decide)).1⟩

end DPSU

namespace DPSU

/-- C7 counterexample: two users `1` and `2`, with `hash 1 = 5` and
`hash 2 = 3`.  The claim predicts visiting order `[2, 1]` (ascending
hash); the code visits `[1, 2]`, because `df.groupby(key_col)` sorts the
groups by the user key itself (pandas `sort=True` default), making the
preceding `sort_values("hash")` irrelevant to the visiting order. -/
theorem C7_counterexample :
    visitOrder (fun u => if u = 1 then (5 : ℤ) else 3)
        [((1 : ℕ), (0 : ℕ)), (2, 0)] = [1, 2] ∧
    (fun u => if u = 1 then (5 : ℤ) else 3) 2 <
      (fun u => if u = 1 then (5 : ℤ) else 3) 1 := by
  decide

/-- C7 amended: the allocation loop visits users in ascending order of
the user identifier's own value — the hash sort permutes only rows, and
`groupby` re-sorts the group keys — so the visiting order is independent
of the hash function and sorted by user id. -/
theorem C7_amended_visit_order {β γ : Type} [LinearOrder β] (hashF : β → ℤ)
    (rows : List (β × γ)) :
    visitOrder hashF rows = groupKeys rows ∧
    List.Sorted (fun a b => a ≤ b) (visitOrder hashF rows) := by
  refine ⟨visitOrder_eq_groupKeys hashF rows, ?_⟩
  rw [visitOrder_eq_groupKeys hashF rows]
  exact groupKeys_sorted rows

/-- C8 counterexample: the parameter triple `eps = 1`, `delta = 1`,
`max_contrib = 1` violates the precondition `0 < delta < 1`, yet the
mechanism signals no parameter error: the `rho`/`gamma` derivation
succeeds (`(1-1)**(1/1) = 0`, so the log argument is `1/2 > 0`) and the
histogram phase runs. -/
theorem C8_counterexample :
    ¬ (0 < (1 : ℝ) ∧ (1 : ℝ) < 1) ∧
    (policyHistogram (α := ℕ) 1 1 1 [[0]]).isOk = true := by
  constructor
  · norm_num
  · unfold policyHistogram
    rw [deriveParams_at_delta_one]
    rfl

/-- C8 amended: there is no explicit parameter validation; some invalid
triples incidentally raise during the derivation before any histogram
work — `eps = 0` raises `ZeroDivisionError` at `1/eps`, and
`max_contrib < 1` raises `ValueError` at `max([])` — but other
violations are not detected: with `eps = -1` (and a valid `delta`) the
derivation succeeds, and the histogram phase runs. -/
theorem C8_amended :
    (∀ (delta : ℝ) (mc : ℕ),
      deriveParams 0 delta mc = Except.error "ZeroDivisionError") ∧
    (∀ (eps delta : ℝ), eps ≠ 0 →
      deriveParams eps delta 0 =
        Except.error "ValueError: max() arg is an empty sequence") ∧
    (deriveParams (-1) (1 / 2) 1).isOk = true ∧
    (policyHistogram (α := ℕ) (-1) (1 / 2) 1 [[0]]).isOk = true := by
  refine ⟨deriveParams_eps_zero, ?_, ?_, ?_⟩
  · exact fun eps delta heps => deriveParams_mc_zero eps delta heps
  · rw [deriveParams_at_neg_eps]
    rfl
  · unfold policyHistogram
    rw [deriveParams_at_neg_eps]
    rfl

theorem C8_amended_witness :
    deriveParams 2 (1 / 2) 0 =
      Except.error "ValueError: max() arg is an empty sequence" :=
  C8_amended.2.1 2 (1 / 2) (by norm_num)

/-- C9: evaluation of `run_dpsu`'s final join at the failing input of
the claim.  User `0` contributes items `0` and `1`; only item `0` is
released.  The claim says only the row `(0, 0)` is returned, but the
code joins `input_df` with the filtered frame on the user-key column, so
the row `(0, 1)` — whose item `1` was not released — is returned too. -/
theorem C9_code_eval :
    run_dpsu_model [((0 : ℕ), (0 : ℕ)), (0, 1)] [0] = [(0, 0), (0, 1)] ∧
    (0, 1) ∈ run_dpsu_model [((0 : ℕ), (0 : ℕ)), (0, 1)] [0] ∧
    (1 : ℕ) ∉ [(0 : ℕ)] := by
  decide

end DPSU

namespace DPSU

variable {F : Type} [LinearOrderedField F] {α : Type} [DecidableEq α]

/-- C10: along the control path that the per-user water-filling loop
actually takes, the budget is non-negative at the head of every
iteration, and whenever the budget-exhaustion branch executes — the only
place the division `budget / k` occurs — `k` is at least `1`, so no
division by zero can occur during allocation. -/
theorem C10_division_safety (hist : α → F) (gamma : F) (items : List α) :
    waterfillSafe (sortedCands hist gamma items) 0 (sortedCands hist gamma items)
      hist (userCosts hist gamma) 1 (sortedCands hist gamma items).length :=
  waterfill_safe (sortedCands hist gamma items) (sortedCands hist gamma items)
    0 (sortedCands hist gamma items).length hist (userCosts hist gamma) 1
    rfl (by omega) zero_le_one

end DPSU

namespace DPSU

theorem exceptMap_cons {ε γ δ : Type} (f : γ → Except ε δ) (x : γ) (xs : List γ) :
    exceptMap f (x :: xs) =
      match f x with
      | Except.error e => Except.error e
      | Except.ok y =>
        match exceptMap f xs with
        | Except.error e => Except.error e
        | Except.ok ys => Except.ok (y :: ys) := rfl

theorem le_foldl_max : ∀ (l : List ℝ) (r : ℝ), r ≤ l.foldl max r := by
  intro l
  induction l with
  | nil => intro r; exact le_rfl
  | cons x xs ih => intro r; exact le_trans (le_max_left r x) (ih (max r x))

theorem rhoTerm_one (lambd delta : ℝ) (hd0 : 0 < delta) (hd1 : delta < 1) :
    rhoTerm lambd delta 1 =
      Except.ok (1 + lambd * Real.log (1 / (2 * delta))) := by
  unfold rhoTerm
  have hp : ((1 : ℝ) - delta) ^ ((1 : ℝ) / ((1 : ℕ) : ℝ)) = 1 - delta := by
    rw [Nat.cast_one, div_one, Real.rpow_one]
  rw [if_neg (fun hc => absurd hc.2 (by norm_num))]
  rw [hp]
  have hd2 : 2 * (1 - (1 - delta)) = 2 * delta := by ring
  rw [hd2]
  rw [if_neg (by positivity)]
  rw [if_neg (not_le.mpr (by positivity))]
  rw [Nat.cast_one]
  norm_num

/-- Every successful parameter derivation from a valid triple
(`eps > 0`, `0 < delta < 1`) yields a strictly positive saturation
target `gamma`, so the hypothesis `0 ≤ gamma` of the saturation-cap
theorem holds on every real run: `gamma = rho + 3*lambd` with
`rho ≥ 1 + lambd * log(1/(2*delta))` (the `i = 1` candidate) and
`log(2*delta) < 1`. -/
theorem deriveParams_gamma_pos (eps delta : ℝ) (mc : ℕ)
    (heps : 0 < eps) (hd0 : 0 < delta) (hd1 : delta < 1) (p : ℝ × ℝ)
    (h : deriveParams eps delta mc = Except.ok p) : 0 < p.2 := by
  unfold deriveParams at h
  rw [if_neg (ne_of_gt heps)] at h
  cases mc with
  | zero =>
    rw [List.range'_zero] at h
    exact absurd h (by simp [exceptMap])
  | succ m =>
    rw [List.range'_succ, exceptMap_cons,
      rhoTerm_one (1 / eps) delta hd0 hd1] at h
    set y := 1 + (1 / eps) * Real.log (1 / (2 * delta)) with hy
    cases hrest : exceptMap (rhoTerm (1 / eps) delta) (List.range' (1 + 1) m) with
    | error e => rw [hrest] at h; exact absurd h (by simp)
    | ok ys =>
      rw [hrest] at h
      simp only [Except.ok.injEq] at h
      have hgamma : p.2 = ys.foldl max y + 3 * (1 / eps) := by rw [← h]
      have hrho : y ≤ ys.foldl max y := le_foldl_max ys y
      have hl : 0 < 1 / eps := one_div_pos.mpr heps
      have hlog2d : Real.log (2 * delta) < 1 := by
        have h1 : Real.log (2 * delta) < Real.log 2 :=
          Real.log_lt_log (by positivity) (by linarith)
        have h2 : Real.log 2 < 1 := by
          have := Real.log_lt_sub_one_of_pos (by norm_num : (0 : ℝ) < 2) (by norm_num)
          linarith
        linarith
      have hinv : Real.log (1 / (2 * delta)) = -Real.log (2 * delta) := by
        rw [one_div, Real.log_inv]
      have hprod : (1 / eps) * Real.log (2 * delta) < (1 / eps) * 1 :=
        mul_lt_mul_of_pos_left hlog2d hl
      have hybound : 1 - (1 / eps) < y := by
        rw [hy, hinv]
        nlinarith [hprod]
      rw [hgamma]
      clear_value y
      linarith [hrho, hybound, hl]

end DPSU
